import Mathlib

/-
  A shallow embedding of the HPO-Lab repository (src/Assignment-1): the
  configuration-space adapter (hpo_algorithm.py), the successive-halving
  strategy (successive_halving.py) and the Bayesian-optimisation strategy
  (bayesian_optimisation.py), together with theorems settling the frozen
  claims about them.

  External collaborators are modelled explicitly:
  * numpy's seeded generator (np.random.default_rng(seed)) is modelled as an
    Oracle: streams of draw outcomes (index draws for rng.choice, uniform
    draws, integer draws) plus models of np.log / np.exp.  A map
    rngOf : Option Int → Oracle stands for default_rng; re-creating the
    generator from the same stored seed yields the same oracle, which is how
    the code's "fresh rng per call, seeded from self.seed" is captured.
  * Python floats are modelled as rationals.
  * the ConfigSpace Configuration validator is external to the repository and
    is modelled from the spec (see validConfig below).
-/

namespace HPO

/-- Values stored in a configuration dictionary: categorical / ordinal choices
(strings or numbers), integers from integer parameters, rationals standing for
Python floats. -/
inductive Value where
  | str (s : String)
  | int (n : Int)
  | rat (q : ℚ)
deriving DecidableEq

/-- Numeric view of a value; float(v) succeeds exactly on numbers. -/
def Value.toRat : Value → Option ℚ
  | .str _ => none
  | .int n => some (n : ℚ)
  | .rat q => some q

/-- Three-way comparison on rationals. -/
def qcmp (x y : ℚ) : Ordering :=
  if x < y then .lt else if y < x then .gt else .eq

/-- Three-way comparison on characters by code point. -/
def charCmp (a b : Char) : Ordering :=
  if a.toNat < b.toNat then .lt else if b.toNat < a.toNat then .gt else .eq

/-- Lexicographic three-way comparison on character lists. -/
def charsCmp : List Char → List Char → Ordering
  | [], [] => .eq
  | [], _ :: _ => .lt
  | _ :: _, [] => .gt
  | a :: as, b :: bs =>
    match charCmp a b with
    | .eq => charsCmp as bs
    | o => o

/-- Three-way comparison on strings (lexicographic by code point, as in
Python). -/
def scmp (x y : String) : Ordering := charsCmp x.data y.data

/-- Comparison of configuration values, following Python semantics where these
are defined: numbers compare numerically (1 == 1.0), strings compare
lexicographically, and a string never equals a number.  (Python raises on an
order comparison between a string and a number; a validated configuration
space never produces such a comparison, and the model totalises it by putting
numbers before strings.) -/
def Value.cmp : Value → Value → Ordering
  | .str a, .str b => scmp a b
  | a, b =>
    match a.toRat, b.toRat with
    | some x, some y => qcmp x y
    | some _, none => .lt
    | none, some _ => .gt
    | none, none => .eq

/-- Python == on values. -/
def Value.eqB (a b : Value) : Bool := a.cmp b == .eq

/-- Python < on values. -/
def Value.ltB (a b : Value) : Bool := a.cmp b == .lt

/-- Python > on values. -/
def Value.gtB (a b : Value) : Bool := a.cmp b == .gt

/-- A (partial) configuration: a Python dict, modelled as an association list
in insertion order; keys are unique by construction of the sampler and grid
generator. -/
abbrev Config := List (String × Value)

/-- Python dict equality (config == other): same key set, ==-equal values. -/
def configEquiv (c d : Config) : Bool :=
  (c.all fun kv =>
    match d.lookup kv.1 with
    | some w => kv.2.eqB w
    | none => false) &&
  (d.all fun kv =>
    match c.lookup kv.1 with
    | some w => kv.2.eqB w
    | none => false)

/-- Python `config in accepted`: list membership by dict equality. -/
def memConfig (c : Config) (l : List Config) : Bool :=
  l.any fun a => configEquiv a c

/-- The hyperparameter kinds of hpo_algorithm.py: CategoricalHyperparameter,
OrdinalHyperparameter, Constant, UniformFloatHyperparameter (with log flag),
UniformIntegerHyperparameter (with log flag). -/
inductive Param where
  | categorical (choices : List Value)
  | ordinal (sequence : List Value)
  | const (value : Value)
  | uniformFloat (lower upper : ℚ) (logScale : Bool)
  | uniformInt (lower upper : Int) (logScale : Bool)

/-- The configuration space: parameter names in the canonical order returned
by cs.get_hyperparameter_names(), each with its parameter. -/
abbrev Space := List (String × Param)

/-- cs[name]. -/
def paramOf (sp : Space) (name : String) : Option Param :=
  (sp.find? fun np => np.1 == name).map fun np => np.2

/-- The canonical name order, cs.get_hyperparameter_names(). -/
def spaceNames (sp : Space) : List String := sp.map fun np => np.1

/-- ConfigSpace conditions: EqualsCondition, InCondition, LessThanCondition,
GreaterThanCondition, plus a generic kind whose evaluate(config) may fail
(modelled by returning none). -/
inductive Cond where
  | equals (parent child : String) (target : Value)
  | inSet (parent child : String) (targets : List Value)
  | lessThan (parent child : String) (target : Value)
  | greaterThan (parent child : String) (target : Value)
  | generic (parent child : String) (eval : Config → Option Bool)

/-- condition.child.name. -/
def Cond.childName : Cond → String
  | .equals _ c _ => c
  | .inSet _ c _ => c
  | .lessThan _ c _ => c
  | .greaterThan _ c _ => c
  | .generic _ c _ => c

/-- self.conditions.get(hp_name, []): the __init__ preprocessing groups
cs.get_conditions() by child name, preserving order; grouping-then-lookup
equals filtering by child. -/
def condsFor (conds : List Cond) (name : String) : List Cond :=
  conds.filter fun c => c.childName == name

/-- One iteration of the condition loop in HPOAlgorithm.is_satisfied: the
source returns False as soon as one condition fails, which is the same as
conjoining this per-condition check.  For LessThanCondition the source tests
`parent_value is None or parent_value >= target` and fails; continuing is
therefore `present and parent_value < target` (and symmetrically for
GreaterThanCondition).  For the generic kind, evaluate(config) = false fails,
and an evaluation error (none) is skipped (treated as satisfied). -/
def condOK (cfg : Config) : Cond → Bool
  | .equals p _ t =>
    match cfg.lookup p with
    | none => false
    | some v => v.eqB t
  | .inSet p _ ts =>
    match cfg.lookup p with
    | none => false
    | some v => ts.any fun t => v.eqB t
  | .lessThan p _ t =>
    match cfg.lookup p with
    | none => false
    | some v => v.ltB t
  | .greaterThan p _ t =>
    match cfg.lookup p with
    | none => false
    | some v => v.gtB t
  | .generic _ _ ev => !(ev cfg == some false)

/-- HPOAlgorithm.is_satisfied(hp_name, config). -/
def isSatisfied (conds : List Cond) (name : String) (cfg : Config) : Bool :=
  (condsFor conds name).all (condOK cfg)

/-- Modelled from the spec: the external ConfigSpace Configuration(cs, config)
validator is not part of this repository; per the spec it accepts a
configuration iff it contains "exactly the currently-active parameter names
given its own values (no inactive parameter present, no active parameter
missing)", a child being active iff all conditions whose child it is evaluate
true against the assigned parent values. -/
def validConfig (sp : Space) (conds : List Cond) (cfg : Config) : Bool :=
  sp.all fun np =>
    if isSatisfied conds np.1 cfg then (cfg.lookup np.1).isSome
    else (cfg.lookup np.1).isNone

/-- The seeded numpy generator together with the external math functions the
sampler applies to its draws.  choice k is the index stream behind
rng.choice (reduced modulo the sequence length), uniform k lo hi the stream
behind rng.uniform, integers k lo hi the stream behind rng.integers
(hi exclusive); logQ and expQ model np.log and np.exp.  One draw consumes one
tick of the stream position. -/
structure Oracle where
  choice : Nat → Nat
  uniform : Nat → ℚ → ℚ → ℚ
  integers : Nat → Int → Int → Int
  logQ : ℚ → ℚ
  expQ : ℚ → ℚ

/-- Round half to even, as Python round() and np.round do.  (It differs from
other rounding modes only at exact halves, which no claim exercises.) -/
def roundHalfEven (q : ℚ) : Int :=
  let f := ⌊q⌋
  let r := q - f
  if r < 1 / 2 then f
  else if 1 / 2 < r then f + 1
  else if f % 2 = 0 then f else f + 1

/-- One value draw in HPOAlgorithm.sample, dispatching on the parameter kind
exactly as the isinstance chain does; returns the value and the next stream
position.  A Constant consumes no randomness. -/
def drawValue (o : Oracle) (pos : Nat) : Param → Value × Nat
  | .categorical cs => (cs.getD (o.choice pos % cs.length) (.str ""), pos + 1)
  | .ordinal sq => (sq.getD (o.choice pos % sq.length) (.str ""), pos + 1)
  | .const v => (v, pos)
  | .uniformFloat lo hi lg =>
    if lg then (.rat (o.expQ (o.uniform pos (o.logQ lo) (o.logQ hi))), pos + 1)
    else (.rat (o.uniform pos lo hi), pos + 1)
  | .uniformInt lo hi lg =>
    if lg then (.int (roundHalfEven (o.expQ (o.uniform pos (o.logQ lo) (o.logQ hi)))), pos + 1)
    else (.int (o.integers pos lo (hi + 1)), pos + 1)

/-- One pass of `for hp_name in list(unsampled_hp)` inside sample's
fixed-point loop.  The source resets progress = False at the top of each
iteration and sets it True only after assigning, so after the for-loop the
flag reflects the LAST name processed; the accumulator argument renders that.
Returns (still-unsampled names in order, extended config, final progress
flag, stream position).  (The source iterates a Python set; the model fixes
the canonical name order as the iteration order.) -/
def onePass (sp : Space) (conds : List Cond) (o : Oracle) :
    List String → Config → Nat → Bool → List String × Config × Bool × Nat
  | [], cfg, pos, prog => ([], cfg, prog, pos)
  | name :: rest, cfg, pos, _ =>
    match paramOf sp name, isSatisfied conds name cfg with
    | some p, true =>
      let vp := drawValue o pos p
      onePass sp conds o rest (cfg ++ [(name, vp.1)]) vp.2 true
    | _, _ =>
      match onePass sp conds o rest cfg pos false with
      | (rem, cfg', prog, pos') => (name :: rem, cfg', prog, pos')

/-- The `while unsampled_hp and progress` loop of sample.  Each iteration that
continues has just assigned at least the last-processed name, so the
unsampled set shrinks strictly; fuel equal to the parameter count therefore
reproduces the source loop exactly (the spec's own max-pass bound). -/
def assignLoop (sp : Space) (conds : List Cond) (o : Oracle) :
    Nat → List String → Config → Nat → Config × Nat
  | 0, _, cfg, pos => (cfg, pos)
  | fuel + 1, remaining, cfg, pos =>
    if remaining.isEmpty then (cfg, pos)
    else
      match onePass sp conds o remaining cfg pos true with
      | (rem, cfg', prog, pos') =>
        if prog then assignLoop sp conds o fuel rem cfg' pos' else (cfg', pos')

/-- Building one candidate configuration in sample: start from the empty dict
with every name unsampled and run the fixed-point assignment loop. -/
def drawOne (sp : Space) (conds : List Cond) (o : Oracle) (pos : Nat) : Config × Nat :=
  assignLoop sp conds o sp.length (spaceNames sp) [] pos

/-- The `for _ in range(missing)` body of sample: draw a candidate, validate
it, keep it when it is new, count the failure otherwise; raise (error, carrying
the failure counter) as soon as the counter reaches size * 100. -/
def drawBatch (sp : Space) (conds : List Cond) (o : Oracle) (size : Nat) :
    Nat → List Config → Nat → Nat → Except Nat (List Config × Nat × Nat)
  | 0, acc, iteration, pos => .ok (acc, iteration, pos)
  | m + 1, acc, iteration, pos =>
    if validConfig sp conds (drawOne sp conds o pos).1 then
      if memConfig (drawOne sp conds o pos).1 acc then
        drawBatch sp conds o size m acc iteration (drawOne sp conds o pos).2
      else
        drawBatch sp conds o size m (acc ++ [(drawOne sp conds o pos).1]) iteration
          (drawOne sp conds o pos).2
    else
      if iteration + 1 = size * 100 then .error (iteration + 1)
      else drawBatch sp conds o size m acc (iteration + 1) (drawOne sp conds o pos).2

/-- The `while len(accepted_configurations) < size` loop of sample.  The
source loop is not guaranteed to terminate, so it is run on fuel counting
loop rounds: none = still running after that many rounds. -/
def sampleLoop (sp : Space) (conds : List Cond) (o : Oracle) (size : Nat) :
    Nat → List Config → Nat → Nat → Option (Except Nat (List Config))
  | 0, acc, _, _ =>
    if size ≤ acc.length then some (.ok acc) else none
  | f + 1, acc, iteration, pos =>
    if size ≤ acc.length then some (.ok acc)
    else
      match drawBatch sp conds o size (size - acc.length) acc iteration pos with
      | .error n => some (.error n)
      | .ok (acc', it', pos') => sampleLoop sp conds o size f acc' it' pos'

/-- HPOAlgorithm.sample(size): fresh generator, empty accepted list, failure
counter 0.  (For size == 1 the source unwraps the singleton list; the model
always returns the list.) -/
def sampleRun (sp : Space) (conds : List Cond) (o : Oracle) (size fuel : Nat) :
    Option (Except Nat (List Config)) :=
  sampleLoop sp conds o size fuel [] 0 0

/-- sample(size) diverges on this space and oracle: no amount of fuel makes
the while-loop return or raise. -/
def sampleDiverges (sp : Space) (conds : List Cond) (o : Oracle) (size : Nat) : Prop :=
  ∀ fuel, sampleRun sp conds o size fuel = none

/-- np.linspace(lo, hi, n) over rationals. -/
def linspace (lo hi : ℚ) (n : Nat) : List ℚ :=
  if n = 0 then []
  else if n = 1 then [lo]
  else (List.range n).map fun i => lo + (hi - lo) * i / (n - 1)

/-- grid's _get_param_grid(hp_name, num_steps): the per-parameter list of
grid values, dispatching on the parameter kind as the isinstance chain does. -/
def paramGrid (o : Oracle) (numSteps : Nat) : Param → List Value
  | .categorical cs => cs
  | .ordinal sq => sq
  | .const v => [v]
  | .uniformFloat lo hi lg =>
    if lg then (linspace (o.logQ lo) (o.logQ hi) numSteps).map fun q => .rat (o.expQ q)
    else (linspace lo hi numSteps).map fun q => .rat q
  | .uniformInt lo hi lg =>
    if lg then (linspace (o.logQ lo) (o.logQ hi) numSteps).map fun q =>
      .int (roundHalfEven (o.expQ q))
    else (linspace (lo : ℚ) (hi : ℚ) numSteps).map fun q => .int (roundHalfEven q)

/-- rng.choice(len, k, replace=False): k distinct indices drawn from the
remaining pool, one stream tick per pick. -/
def pickIdx (o : Oracle) : Nat → List Nat → Nat → List Nat × Nat
  | 0, _, pos => ([], pos)
  | k + 1, avail, pos =>
    if avail.isEmpty then ([], pos)
    else
      let i := o.choice pos % avail.length
      let x := avail.getD i 0
      match pickIdx o k (avail.eraseIdx i) (pos + 1) with
      | (rest, pos') => (x :: rest, pos')

/-- One parameter step of grid's _get_cartesian_product: expand every partial
config whose condition for this name is satisfied by each grid value (leave
the others untouched), then subsample uniformly down to nInit whenever the
step produced more than nInit candidates. -/
def expandOne (conds : List Cond) (o : Oracle) (nInit : Nat) (values : List Value)
    (name : String) (grid : List Config) (pos : Nat) : List Config × Nat :=
  let newGrid := grid.flatMap fun cfg =>
    if isSatisfied conds name cfg then values.map fun v => cfg ++ [(name, v)]
    else [cfg]
  if nInit < newGrid.length then
    match pickIdx o nInit (List.range newGrid.length) pos with
    | (idxs, pos') => (idxs.map fun i => newGrid.getD i [], pos')
  else (newGrid, pos)

/-- The parameter fold of _get_cartesian_product, starting from the single
empty partial config. -/
def cartesianProd (conds : List Cond) (o : Oracle) (nInit numSteps : Nat) :
    List (String × Param) → List Config → Nat → List Config × Nat
  | [], grid, pos => (grid, pos)
  | np :: rest, grid, pos =>
    match expandOne conds o nInit (paramGrid o numSteps np.2) np.1 grid pos with
    | (g', pos') => cartesianProd conds o nInit numSteps rest g' pos'

/-- HPOAlgorithm.grid(n_init, num_steps): fresh generator, conditional
Cartesian product over all parameters, then validation (invalid candidates
are dropped). -/
def gridRun (sp : Space) (conds : List Cond) (o : Oracle) (nInit numSteps : Nat) :
    List Config :=
  (cartesianProd conds o nInit numSteps sp [[]] 0).1.filter (validConfig sp conds)

/-- The per-parameter encoding of HPOAlgorithm.vectorize: missing name ↦ -1;
categorical / ordinal ↦ index of the value in choices / sequence (.index,
first match under Python ==; none models the ValueError when absent); any
other value passes through float() (none models the failure on a non-numeric
value). -/
def encodeSpec (p : Param) (v? : Option Value) : Option ℚ :=
  match v? with
  | none => some (-1)
  | some v =>
    match p with
    | .categorical cs => (cs.findIdx? fun c => c.eqB v).map fun i => (i : ℚ)
    | .ordinal sq => (sq.findIdx? fun c => c.eqB v).map fun i => (i : ℚ)
    | _ => v.toRat

/-- HPOAlgorithm.vectorize(config): one float per parameter name in the
canonical order, accumulated left to right as the source for-loop does; a
failing encode aborts the whole call (the source raises). -/
def vectorize (sp : Space) (cfg : Config) : Option (List ℚ) :=
  match sp with
  | [] => some []
  | np :: rest =>
    match encodeSpec np.2 (cfg.lookup np.1) with
    | none => none
    | some q => (vectorize rest cfg).map fun l => q :: l

/-- Sequencing used by the spec-side restatement of vectorize. -/
def allSome : List (Option ℚ) → Option (List ℚ)
  | [] => some []
  | none :: _ => none
  | some q :: rest => (allSome rest).map fun l => q :: l

/-- The spec's reading of vectorize: the per-name encodings of the canonical
name order, sequenced. -/
def vectorizeSpec (sp : Space) (cfg : Config) : Option (List ℚ) :=
  allSome (sp.map fun np => encodeSpec np.2 (cfg.lookup np.1))

/-- The mutable state of a SuccessiveHalving instance. -/
structure SHState where
  configs : List Config
  evals : List ℚ
  idx : Nat
  currBudget : Int
  minBudget : Int
  maxBudget : Int
  eta : Nat

/-- np.argsort(evals)[::-1]: indices of evals in descending value order.
(np.argsort's tie order under its default unstable sort is unspecified; the
model fixes insertion sort's.) -/
def argsortDesc (evals : List ℚ) : List Nat :=
  List.insertionSort (fun i j => evals.getD j 0 ≤ evals.getD i 0) (List.range evals.length)

/-- SuccessiveHalving.ask.  Round finished (every pooled config has a result):
at max budget return the terminal marker; otherwise keep the top
len // eta configs by descending result, clear the results, multiply the
budget by eta capped at max budget (jumping to max budget when exactly one
config survives), reset the cursor and fall through.  Then hand out the
config at the cursor and advance it; an out-of-range cursor is the source's
IndexError, modelled as error (the cursor advance has already happened). -/
def shAsk (s : SHState) : Except Unit (Option Config × Int) × SHState :=
  if s.evals.length = s.configs.length then
    if s.currBudget = s.maxBudget then
      (.ok (none, s.maxBudget), s)
    else
      let top := (argsortDesc s.evals).take (s.evals.length / s.eta)
      let configs' := top.map fun i => s.configs.getD i []
      let b1 := min (s.currBudget * (s.eta : Int)) s.maxBudget
      let b2 := if configs'.length = 1 then s.maxBudget else b1
      let s' : SHState :=
        { s with configs := configs', evals := [], currBudget := b2, idx := 1 }
      match configs'.get? 0 with
      | some c => (.ok (some c, b2), s')
      | none => (.error (), s')
  else
    match s.configs.get? s.idx with
    | some c => (.ok (some c, s.currBudget), { s with idx := s.idx + 1 })
    | none => (.error (), { s with idx := s.idx + 1 })

/-- SuccessiveHalving.tell(result). -/
def shTell (s : SHState) (r : ℚ) : SHState :=
  { s with evals := s.evals ++ [r] }

/-- Well-formedness of a SuccessiveHalving state as constructed: eta ≥ 1 and
min_budget ≤ curr_budget ≤ max_budget with non-negative budgets. -/
def SHInv (s : SHState) : Prop :=
  1 ≤ s.eta ∧ 0 ≤ s.minBudget ∧ s.minBudget ≤ s.currBudget ∧ s.currBudget ≤ s.maxBudget

/-- One driver-visible step on a SuccessiveHalving instance: a successful ask
or a tell. -/
inductive SHStep : SHState → SHState → Prop
  | ask (s s' : SHState) (r : Option Config × Int) (h : shAsk s = (.ok r, s')) : SHStep s s'
  | tell (s : SHState) (r : ℚ) : SHStep s (shTell s r)

/-- Any number of driver steps. -/
inductive SHReach : SHState → SHState → Prop
  | refl (s : SHState) : SHReach s s
  | step (s t u : SHState) (h : SHReach s t) (hs : SHStep t u) : SHReach s u

/-- The Gaussian-process collaborator: fit(X, y) followed by
predict(X_candidates, return_std=True) is a function of the training data
and the query points, returning the mean and std vectors. -/
structure GPOracle where
  predict : List (List ℚ) → List ℚ → List (List ℚ) → List ℚ × List ℚ

/-- The mutable state of a BayesianOptimisation instance.  gpX, gpY mirror
the fitted surrogate's training data; space, conds, seed are fixed at
construction. -/
structure BOState where
  space : Space
  conds : List Cond
  seed : Option Int
  maxBudget : Int
  nInit : Nat
  configs : List Config
  evals : List ℚ
  idx : Nat
  fMax : Option ℚ
  gpX : List (List ℚ)
  gpY : List ℚ

/-- BayesianOptimisation._ei(mu, sigma) for one candidate, with the external
scipy norm.cdf / norm.pdf as parameters Φ and φ:
a = mu - f_max; z = a / sigma; a * Φ(z) + sigma * φ(z).  The source has no
special case for sigma = 0: z = a / sigma is computed unconditionally. -/
def ei (Φ φ : ℚ → ℚ) (fMax mu sigma : ℚ) : ℚ :=
  let a := mu - fMax
  let z := a / sigma
  a * Φ z + sigma * φ z

/-- np.argmax: index of the first maximal entry. -/
def argmaxAux : List ℚ → Nat → Nat → ℚ → Nat
  | [], _, bi, _ => bi
  | x :: rest, i, bi, bv =>
    if bv < x then argmaxAux rest (i + 1) i x else argmaxAux rest (i + 1) bi bv

/-- np.argmax over a list (0 on the empty list, where numpy raises). -/
def argmaxIdx : List ℚ → Nat
  | [] => 0
  | x :: rest => argmaxAux rest 1 0 x

/-- The candidate draw in BayesianOptimisation.ask: self.sample(100), with the
generator re-created from the stored seed. -/
def boCandidates (rngOf : Option Int → Oracle) (fuel : Nat) (s : BOState) :
    Option (Except Nat (List Config)) :=
  sampleRun s.space s.conds (rngOf s.seed) 100 fuel

/-- The surrogate-fit branch of BayesianOptimisation.ask: vectorize the pool,
fit the GP, draw 100 candidates, vectorize them, predict mean and std, update
f_max to the best recorded result, score candidates by expected improvement
and append the argmax candidate to the pool.  none models the raising paths
(vectorize failure, sampling exhaustion or divergence, max of an empty
result list). -/
def boFit (rngOf : Option Int → Oracle) (gpo : GPOracle) (Φ φ : ℚ → ℚ) (fuel : Nat)
    (s : BOState) : Option BOState :=
  match s.configs.mapM (fun c => vectorize s.space c) with
  | none => none
  | some tX =>
    match boCandidates rngOf fuel s with
    | some (.ok cands) =>
      match cands.mapM (fun c => vectorize s.space c) with
      | none => none
      | some cX =>
        match s.evals.max? with
        | none => none
        | some fm =>
          let ms := gpo.predict tX s.evals cX
          let acq := List.zipWith (fun m sd => ei Φ φ fm m sd) ms.1 ms.2
          let bi := argmaxIdx acq
          some { s with configs := s.configs ++ [cands.getD bi []], fMax := some fm,
                        gpX := tX, gpY := s.evals }
    | _ => none

/-- BayesianOptimisation.ask: terminal once idx reaches n_init; otherwise run
the fit branch when every pooled config has a result, then hand out the
config at the cursor (always at max budget) and advance the cursor. -/
def boAsk (rngOf : Option Int → Oracle) (gpo : GPOracle) (Φ φ : ℚ → ℚ) (fuel : Nat)
    (s : BOState) : Except Unit (Option Config × Int) × BOState :=
  if s.nInit ≤ s.idx then (.ok (none, s.maxBudget), s)
  else
    match (if s.evals.length = s.configs.length then boFit rngOf gpo Φ φ fuel s else some s) with
    | none => (.error (), s)
    | some t =>
      match t.configs.get? t.idx with
      | some c => (.ok (some c, t.maxBudget), { t with idx := t.idx + 1 })
      | none => (.error (), { t with idx := t.idx + 1 })

/-- BayesianOptimisation.tell(result). -/
def boTell (s : BOState) (r : ℚ) : BOState :=
  { s with evals := s.evals ++ [r] }

/-- One driver-visible step on a BayesianOptimisation instance. -/
inductive BOStep (rngOf : Option Int → Oracle) (gpo : GPOracle) (Φ φ : ℚ → ℚ) (fuel : Nat) :
    BOState → BOState → Prop
  | ask (s s' : BOState) (r : Option Config × Int)
      (h : boAsk rngOf gpo Φ φ fuel s = (.ok r, s')) : BOStep rngOf gpo Φ φ fuel s s'
  | tell (s : BOState) (r : ℚ) : BOStep rngOf gpo Φ φ fuel s (boTell s r)

/-- Any number of driver steps on a BayesianOptimisation instance. -/
inductive BOReach (rngOf : Option Int → Oracle) (gpo : GPOracle) (Φ φ : ℚ → ℚ) (fuel : Nat) :
    BOState → BOState → Prop
  | refl (s : BOState) : BOReach rngOf gpo Φ φ fuel s s
  | step (s t u : BOState) (h : BOReach rngOf gpo Φ φ fuel s t)
      (hs : BOStep rngOf gpo Φ φ fuel t u) : BOReach rngOf gpo Φ φ fuel s u

/-- The constructor inputs shared by all strategies. -/
structure Inputs where
  space : Space
  conds : List Cond
  totalBudget : Int
  minBudget : Int
  maxBudget : Int
  seed : Option Int

/-- n_init = int(total_budget / (max_budget / min_budget)), computed in exact
arithmetic (int() truncation equals floor for the non-negative budgets in
use). -/
def nInitOf (inp : Inputs) : Nat :=
  (((inp.totalBudget : ℚ) / ((inp.maxBudget : ℚ) / (inp.minBudget : ℚ))).floor).toNat

/-- The pool a RandomSearch instance builds at construction:
self.configs = self.sample(n_init) with a generator created from the seed. -/
def rsPool (rngOf : Option Int → Oracle) (inp : Inputs) (fuel : Nat) :
    Option (Except Nat (List Config)) :=
  sampleRun inp.space inp.conds (rngOf inp.seed) (nInitOf inp) fuel

/-- The pool a GridSearch instance builds at construction:
self.configs = self.grid(n_init, num_steps=2). -/
def gsPool (rngOf : Option Int → Oracle) (inp : Inputs) : List Config :=
  gridRun inp.space inp.conds (rngOf inp.seed) (nInitOf inp) 2

/-- An oracle whose index stream reads off a fixed list (0 past its end) and
whose remaining components are fixed simple functions. -/
def oracleArr (l : List Nat) : Oracle where
  choice := fun n => l.getD n 0
  uniform := fun _ lo _ => lo
  integers := fun _ lo _ => lo
  logQ := id
  expQ := id

/-- A default concrete oracle. -/
def oracle0 : Oracle := oracleArr []

/-- The spec scenario space: two unconditional categorical parameters with
choices ["a", "b"]. -/
def scenSpace : Space :=
  [("x", .categorical [.str "a", .str "b"]), ("y", .categorical [.str "a", .str "b"])]

/-- An index stream under which sample(3) on scenSpace accepts three distinct
configurations (the second draw duplicates the first in its x slot only). -/
def scenOracle : Oracle := oracleArr [0, 0, 0, 1, 1, 0]

/-- A space with one constant parameter: it admits exactly one valid
configuration, so sample(2) keeps drawing valid duplicates forever. -/
def constSpace : Space := [("c", .const (.str "x"))]

/-- A space on which every draw is invalid: name order [a, b, c] with
conditions a ← (b == "x") and c ← (b == "y").  The first pass skips a (b is
unset), assigns b = "x", then skips c, and since the LAST name made no
progress the fixed-point loop stops with a unassigned — yet a is active once
b = "x", so validation rejects the draw, every time. -/
def exhaustSpace : Space :=
  [("a", .categorical [.str "p", .str "q"]),
   ("b", .categorical [.str "x"]),
   ("c", .categorical [.str "p", .str "q"])]

/-- The two conditions of exhaustSpace. -/
def exhaustConds : List Cond :=
  [Cond.equals "b" "a" (.str "x"), Cond.equals "b" "c" (.str "y")]

/-- A concrete SuccessiveHalving state with a finished round of two results. -/
def shState0 : SHState where
  configs := [[("p", .str "a")], [("p", .str "b")]]
  evals := [1, 2]
  idx := 2
  currBudget := 1
  minBudget := 1
  maxBudget := 8
  eta := 2

/-- A concrete BayesianOptimisation state before its first ask. -/
def boState0 : BOState where
  space := scenSpace
  conds := []
  seed := some 0
  maxBudget := 8
  nInit := 5
  configs := [[("x", .str "a"), ("y", .str "a")]]
  evals := []
  idx := 0
  fMax := none
  gpX := []
  gpY := []

/-- A concrete seed-to-generator map. -/
def rngOf0 : Option Int → Oracle := fun _ => scenOracle

/-- A concrete Gaussian-process collaborator. -/
def gpo0 : GPOracle where
  predict := fun _ _ xq => (xq.map fun _ => 0, xq.map fun _ => 1)

/-- Concrete strategy construction inputs. -/
def inputs0 : Inputs where
  space := scenSpace
  conds := []
  totalBudget := 8
  minBudget := 1
  maxBudget := 8
  seed := some 7

/-- A value lies in the discrete domain of a parameter: a categorical value
among its choices, an ordinal value in its sequence, a constant equal to its
value (continuous and integer draws are unconstrained in the model, whose
uniform streams are arbitrary). -/
def paramDomB : Param → Value → Bool
  | .categorical cs, v => cs.any fun c => decide (c = v)
  | .ordinal sq, v => sq.any fun c => decide (c = v)
  | .const c, v => decide (c = v)
  | _, _ => true

/-- The categorical choices / ordinal sequence are nonempty (rng.choice on an
empty sequence raises in numpy, so real spaces satisfy this). -/
def nonemptyDomain : Param → Bool
  | .categorical cs => !cs.isEmpty
  | .ordinal sq => !sq.isEmpty
  | _ => true

/-- Every binding of the configuration names a space parameter and carries a
value from its discrete domain. -/
def domOK (sp : Space) (cfg : Config) : Bool :=
  cfg.all fun kv =>
    match paramOf sp kv.1 with
    | some p => paramDomB p kv.2
    | none => false

/-- The invariant of sample's accepted list: every accepted configuration
passed validation and was drawn from the parameter domains, and the accepted
configurations are pairwise distinct as dicts. -/
def SampleInv (sp : Space) (conds : List Cond) (acc : List Config) : Prop :=
  (∀ c ∈ acc, validConfig sp conds c = true ∧ domOK sp c = true) ∧
  acc.Pairwise fun a b => configEquiv a b = false

/-- The three configurations sample(3) accepts on scenSpace under
scenOracle. -/
def scenAccepted : List Config :=
  [[("x", .str "a"), ("y", .str "a")],
   [("x", .str "a"), ("y", .str "b")],
   [("x", .str "b"), ("y", .str "a")]]

/-- The 4-element cross product of the scenario space. -/
def scenCross : List Config :=
  [[("x", .str "a"), ("y", .str "a")],
   [("x", .str "a"), ("y", .str "b")],
   [("x", .str "b"), ("y", .str "a")],
   [("x", .str "b"), ("y", .str "b")]]

/-- The spec's per-condition predicate for is_satisfied, stated in the
claim's own terms: Equals ⇒ parent value == target; In-set ⇒ parent value a
member of the target set; LessThan / GreaterThan ⇒ parent value present and
strictly less / greater than the target; a generic condition holds unless it
evaluates to false (an evaluation failure is skipped, hence satisfied). -/
def CondHolds (cfg : Config) : Cond → Prop
  | .equals p _ t => ∃ v, cfg.lookup p = some v ∧ v.eqB t = true
  | .inSet p _ ts => ∃ v, cfg.lookup p = some v ∧ ∃ t' ∈ ts, v.eqB t' = true
  | .lessThan p _ t => ∃ v, cfg.lookup p = some v ∧ v.ltB t = true
  | .greaterThan p _ t => ∃ v, cfg.lookup p = some v ∧ v.gtB t = true
  | .generic _ _ ev => ¬ ev cfg = some false

theorem condOK_iff (cfg : Config) (c : Cond) : condOK cfg c = true ↔ CondHolds cfg c := by
  cases c with
  | equals p ch t =>
    simp only [condOK, CondHolds]
    cases h : cfg.lookup p <;> simp [h]
  | inSet p ch ts =>
    simp only [condOK, CondHolds]
    cases h : cfg.lookup p <;> simp [h, List.any_eq_true]
  | lessThan p ch t =>
    simp only [condOK, CondHolds]
    cases h : cfg.lookup p <;> simp [h]
  | greaterThan p ch t =>
    simp only [condOK, CondHolds]
    cases h : cfg.lookup p <;> simp [h]
  | generic p ch ev =>
    simp only [condOK, CondHolds]
    cases h : ev cfg <;> simp [h]

/-- C4: for every parameter name and partial configuration,
is_satisfied(param_name, config) returns true iff every condition whose
child is param_name holds, where Equals requires parent value == target,
In-set requires membership of the target set, LessThan / GreaterThan require
the parent value to be present and strictly less / greater than the target
(an absent parent is unsatisfied), a generic condition whose evaluation
raises is skipped (treated as satisfied), and all conditions on the same
child are conjoined. -/
theorem is_satisfied_iff_all_conditions_hold (conds : List Cond) (name : String)
    (cfg : Config) :
    isSatisfied conds name cfg = true ↔ ∀ c ∈ condsFor conds name, CondHolds cfg c := by
  unfold isSatisfied
  rw [List.all_eq_true]
  exact forall₂_congr fun c _ => condOK_iff cfg c

/-- C2 (amended): the acquisition value _ei computes is exactly
a·Φ(z) + σ·φ(z) with a = mu − f_max and z = a/σ — and the source applies no
special-case policy when σ = 0: z = a/σ is computed unconditionally, and at
σ = 0 the value degenerates to a·Φ(a/0), which is not a deterministic zero
(see the counterexample). -/
theorem ei_formula_no_zero_std_policy (Φ φ : ℚ → ℚ) (fm mu sigma : ℚ) :
    ei Φ φ fm mu sigma =
      (mu - fm) * Φ ((mu - fm) / sigma) + sigma * φ ((mu - fm) / sigma) ∧
    ei Φ φ fm mu 0 = (mu - fm) * Φ ((mu - fm) / 0) := by
  constructor
  · rfl
  · simp [ei]

/-- C2 counterexample: the claim requires a deterministic policy (such as
EI = 0) when a candidate's predicted std is exactly 0, but the code computes
the formula unconditionally.  With any CDF model having Φ(0) = 1/2 (the
standard normal value), mu = 1, f_max = 0 and σ = 0 give EI = 1/2 ≠ 0. -/
theorem ei_zero_std_counterexample :
    ei (fun _ => 1 / 2) (fun _ => 1 / 2) 0 1 0 ≠ 0 := by
  norm_num [ei]

/-- C9: vectorize(config) is the per-name encoding of the canonical
parameter order — categorical/ordinal values become their index in
choices/sequence, an absent name becomes the sentinel −1, anything else
passes through as a float — it is a pure function of the configuration's
lookups, and a successful result has exactly one entry per parameter name. -/
theorem vectorize_encoding_pure_and_total (sp : Space) (cfg cfg' : Config) :
    vectorize sp cfg = vectorizeSpec sp cfg ∧
    ((∀ k, cfg.lookup k = cfg'.lookup k) → vectorize sp cfg = vectorize sp cfg') ∧
    (∀ vec, vectorize sp cfg = some vec → vec.length = sp.length) := by
  refine ⟨?_, ?_, ?_⟩
  · induction sp with
    | nil => rfl
    | cons np rest ih =>
      cases h : encodeSpec np.2 (cfg.lookup np.1) <;>
        simp [vectorize, vectorizeSpec, allSome, h, ih]
  · intro h
    induction sp with
    | nil => rfl
    | cons np rest ih =>
      simp only [vectorize, h np.1]
      rw [ih]
  · induction sp generalizing cfg with
    | nil =>
      intro vec h
      simp only [vectorize, Option.some.injEq] at h
      simp [← h]
    | cons np rest ih =>
      intro vec h
      simp only [vectorize] at h
      cases he : encodeSpec np.2 (cfg.lookup np.1) <;> rw [he] at h
      · exact absurd h (by simp)
      · cases hv : vectorize rest cfg <;> rw [hv] at h
        · exact absurd h (by simp)
        · simp only [Option.map_some] at h
          cases h
          simp [List.length_cons, ih cfg _ hv]

/-- C9 witness: on the concrete two-parameter space with x = "b" assigned and
y missing, vectorize returns the index 1 for x and the sentinel −1 for y,
agrees with the spec encoding, and has one entry per parameter. -/
theorem vectorize_encoding_witness :
    vectorize scenSpace [("x", .str "b")] = some [1, -1] ∧
    vectorize scenSpace [("x", .str "b")] = vectorizeSpec scenSpace [("x", .str "b")] ∧
    (∀ vec, vectorize scenSpace [("x", .str "b")] = some vec → vec.length = 2) := by
  refine ⟨by rfl, (vectorize_encoding_pure_and_total scenSpace [("x", .str "b")] []).1, ?_⟩
  intro vec h
  exact (vectorize_encoding_pure_and_total scenSpace [("x", .str "b")] []).2.2 vec h

/-- C8: two strategy instances constructed with identical inputs (same space,
conditions, budgets and seed) build identical sampled pools and identical
grids: both constructions are functions of the inputs alone, with the
generator derived from the stored seed. -/
theorem pools_deterministic_same_inputs (rngOf : Option Int → Oracle)
    (inp1 inp2 : Inputs) (fuel : Nat) (h : inp1 = inp2) :
    rsPool rngOf inp1 fuel = rsPool rngOf inp2 fuel ∧
    gsPool rngOf inp1 = gsPool rngOf inp2 := by
  subst h
  exact ⟨rfl, rfl⟩

/-- C8 witness: the concrete inputs built twice give the same pool and grid. -/
theorem pools_deterministic_witness :
    rsPool rngOf0 inputs0 6 = rsPool rngOf0 inputs0 6 ∧
    gsPool rngOf0 inputs0 = gsPool rngOf0 inputs0 :=
  pools_deterministic_same_inputs rngOf0 inputs0 inputs0 6 rfl

theorem getD_mem_of_lt {α : Type} {l : List α} {i : Nat} (h : i < l.length) (d : α) :
    l.getD i d ∈ l := by
  rw [List.getD_eq_getElem?_getD, List.getElem?_eq_getElem h]
  exact List.getElem_mem h

theorem paramOf_mem {sp : Space} {name : String} {p : Param} (h : paramOf sp name = some p) :
    ∃ np ∈ sp, np.2 = p := by
  unfold paramOf at h
  cases hf : sp.find? (fun np => np.1 == name) with
  | none => rw [hf] at h; cases h
  | some np => rw [hf] at h; cases h; exact ⟨np, List.mem_of_find?_eq_some hf, rfl⟩

theorem drawValue_dom (o : Oracle) (pos : Nat) (p : Param) (h : nonemptyDomain p = true) :
    paramDomB p (drawValue o pos p).1 = true := by
  cases p with
  | categorical cs =>
    have hlen : 0 < cs.length := by
      cases cs with
      | nil => exact absurd h (by decide)
      | cons a l => simp
    have hm : cs.getD (o.choice pos % cs.length) (.str "") ∈ cs :=
      getD_mem_of_lt (Nat.mod_lt _ hlen) _
    simp only [drawValue, paramDomB, List.any_eq_true]
    exact ⟨_, hm, by simp⟩
  | ordinal sq =>
    have hlen : 0 < sq.length := by
      cases sq with
      | nil => exact absurd h (by decide)
      | cons a l => simp
    have hm : sq.getD (o.choice pos % sq.length) (.str "") ∈ sq :=
      getD_mem_of_lt (Nat.mod_lt _ hlen) _
    simp only [drawValue, paramDomB, List.any_eq_true]
    exact ⟨_, hm, by simp⟩
  | const v => simp [drawValue, paramDomB]
  | uniformFloat lo hi lg => cases lg <;> rfl
  | uniformInt lo hi lg => cases lg <;> rfl

theorem domOK_append {sp : Space} {cfg : Config} {name : String} {v : Value} {p : Param}
    (hc : domOK sp cfg = true) (hp : paramOf sp name = some p)
    (hv : paramDomB p v = true) : domOK sp (cfg ++ [(name, v)]) = true := by
  simp only [domOK, List.all_append, Bool.and_eq_true] at *
  exact ⟨hc, by simp [hp, hv]⟩

theorem onePass_dom {sp : Space} {conds : List Cond} {o : Oracle}
    (hsp : ∀ np ∈ sp, nonemptyDomain np.2 = true) :
    ∀ (names : List String) (cfg : Config) (pos : Nat) (b : Bool),
      domOK sp cfg = true → domOK sp (onePass sp conds o names cfg pos b).2.1 = true := by
  intro names
  induction names with
  | nil => intro cfg pos b h; exact h
  | cons name rest ih =>
    intro cfg pos b h
    simp only [onePass]
    cases hp : paramOf sp name with
    | none =>
      rcases h' : onePass sp conds o rest cfg pos false with ⟨rem, cfg', prog, pos'⟩
      have := ih cfg pos false h
      rw [h'] at this
      simpa [h'] using this
    | some p =>
      cases hs : isSatisfied conds name cfg with
      | false =>
        rcases h' : onePass sp conds o rest cfg pos false with ⟨rem, cfg', prog, pos'⟩
        have := ih cfg pos false h
        rw [h'] at this
        simpa [h', hp, hs] using this
      | true =>
        simp only [hp, hs]
        obtain ⟨np, hmem, hnp⟩ := paramOf_mem hp
        have hdom : paramDomB p (drawValue o pos p).1 = true :=
          drawValue_dom o pos p (hnp ▸ hsp np hmem)
        exact ih _ _ true (domOK_append h hp hdom)

theorem assignLoop_dom {sp : Space} {conds : List Cond} {o : Oracle}
    (hsp : ∀ np ∈ sp, nonemptyDomain np.2 = true) :
    ∀ (fuel : Nat) (names : List String) (cfg : Config) (pos : Nat),
      domOK sp cfg = true → domOK sp (assignLoop sp conds o fuel names cfg pos).1 = true := by
  intro fuel
  induction fuel with
  | zero => intro names cfg pos h; exact h
  | succ f ih =>
    intro names cfg pos h
    simp only [assignLoop]
    by_cases he : names.isEmpty
    · simpa [he] using h
    · simp only [he, if_false]
      rcases h' : onePass sp conds o names cfg pos true with ⟨rem, cfg', prog, pos'⟩
      have hd : domOK sp cfg' = true := by
        have hx := @onePass_dom sp conds o hsp names cfg pos true h
        rw [h'] at hx
        exact hx
      cases prog with
      | true => exact ih rem cfg' pos' hd
      | false => exact hd

theorem drawOne_dom {sp : Space} {conds : List Cond} {o : Oracle}
    (hsp : ∀ np ∈ sp, nonemptyDomain np.2 = true) (pos : Nat) :
    domOK sp (drawOne sp conds o pos).1 = true :=
  assignLoop_dom hsp sp.length (spaceNames sp) [] pos rfl

theorem drawBatch_ok {sp : Space} {conds : List Cond} {o : Oracle} {size : Nat}
    (hsp : ∀ np ∈ sp, nonemptyDomain np.2 = true) :
    ∀ (m : Nat) (acc : List Config) (it pos : Nat) (acc' : List Config) (it' pos' : Nat),
      SampleInv sp conds acc →
      drawBatch sp conds o size m acc it pos = .ok (acc', it', pos') →
      SampleInv sp conds acc' ∧ acc.length ≤ acc'.length ∧ acc'.length ≤ acc.length + m ∧
        (it < size * 100 → it' < size * 100) := by
  intro m
  induction m with
  | zero =>
    intro acc it pos acc' it' pos' hInv h
    cases h
    exact ⟨hInv, Nat.le_refl _, Nat.le_refl _, fun h => h⟩
  | succ m ih =>
    intro acc it pos acc' it' pos' hInv h
    simp only [drawBatch] at h
    by_cases hv : validConfig sp conds (drawOne sp conds o pos).1 = true
    · rw [if_pos hv] at h
      by_cases hm : memConfig (drawOne sp conds o pos).1 acc = true
      · rw [if_pos hm] at h
        obtain ⟨h1, h2, h3, h4⟩ := ih acc it _ acc' it' pos' hInv h
        exact ⟨h1, h2, Nat.le_trans h3 (by omega), h4⟩
      · rw [if_neg hm] at h
        have hInv2 : SampleInv sp conds (acc ++ [(drawOne sp conds o pos).1]) := by
          obtain ⟨ha, hpw⟩ := hInv
          constructor
          · intro c hc
            rcases List.mem_append.mp hc with hc | hc
            · exact ha c hc
            · rcases List.mem_singleton.mp hc with rfl
              exact ⟨hv, drawOne_dom hsp pos⟩
          · rw [List.pairwise_append]
            refine ⟨hpw, List.pairwise_singleton _ _, ?_⟩
            intro a hmem b hb
            rcases List.mem_singleton.mp hb with rfl
            have := (List.any_eq_false.mp (Bool.not_eq_true _ ▸ hm)) a hmem
            simpa using this
        obtain ⟨h1, h2, h3, h4⟩ := ih _ it _ acc' it' pos' hInv2 h
        refine ⟨h1, ?_, ?_, h4⟩
        · exact Nat.le_trans (by simp) h2
        · simpa [Nat.add_comm, Nat.add_left_comm] using Nat.le_trans h3 (by simp; omega)
    · rw [if_neg hv] at h
      by_cases hc : it + 1 = size * 100
      · rw [if_pos hc] at h
        cases h
      · rw [if_neg hc] at h
        obtain ⟨h1, h2, h3, h4⟩ := ih acc (it + 1) _ acc' it' pos' hInv h
        refine ⟨h1, h2, Nat.le_trans h3 (by omega), fun hlt => h4 (by omega)⟩

theorem drawBatch_error {sp : Space} {conds : List Cond} {o : Oracle} {size : Nat} :
    ∀ (m : Nat) (acc : List Config) (it pos : Nat) (n : Nat),
      it < size * 100 →
      drawBatch sp conds o size m acc it pos = .error n →
      n = size * 100 := by
  intro m
  induction m with
  | zero => intro acc it pos n _ h; cases h
  | succ m ih =>
    intro acc it pos n hit h
    simp only [drawBatch] at h
    by_cases hv : validConfig sp conds (drawOne sp conds o pos).1 = true
    · rw [if_pos hv] at h
      by_cases hm : memConfig (drawOne sp conds o pos).1 acc = true
      · rw [if_pos hm] at h
        exact ih acc it _ n hit h
      · rw [if_neg hm] at h
        exact ih _ it _ n hit h
    · rw [if_neg hv] at h
      by_cases hc : it + 1 = size * 100
      · rw [if_pos hc] at h
        cases h
        exact hc
      · rw [if_neg hc] at h
        exact ih acc (it + 1) _ n (by omega) h

theorem sampleLoop_spec {sp : Space} {conds : List Cond} {o : Oracle} {size : Nat}
    (hsp : ∀ np ∈ sp, nonemptyDomain np.2 = true) :
    ∀ (fuel : Nat) (acc : List Config) (it pos : Nat),
      SampleInv sp conds acc → acc.length ≤ size → it < size * 100 →
      (∀ res, sampleLoop sp conds o size fuel acc it pos = some (.ok res) →
        res.length = size ∧ SampleInv sp conds res) ∧
      (∀ n, sampleLoop sp conds o size fuel acc it pos = some (.error n) → n = size * 100) := by
  intro fuel
  induction fuel with
  | zero =>
    intro acc it pos hInv hlen hit
    constructor
    · intro res h
      simp only [sampleLoop] at h
      by_cases hc : size ≤ acc.length
      · rw [if_pos hc] at h
        cases h
        exact ⟨Nat.le_antisymm hlen hc, hInv⟩
      · rw [if_neg hc] at h
        cases h
    · intro n h
      simp only [sampleLoop] at h
      by_cases hc : size ≤ acc.length
      · rw [if_pos hc] at h; cases h
      · rw [if_neg hc] at h; cases h
  | succ f ih =>
    intro acc it pos hInv hlen hit
    by_cases hc : size ≤ acc.length
    · constructor
      · intro res h
        simp only [sampleLoop, if_pos hc] at h
        cases h
        exact ⟨Nat.le_antisymm hlen hc, hInv⟩
      · intro n h
        simp only [sampleLoop, if_pos hc] at h
        cases h
    · constructor
      · intro res h
        simp only [sampleLoop, if_neg hc] at h
        cases hb : drawBatch sp conds o size (size - acc.length) acc it pos with
        | error n => rw [hb] at h; cases h
        | ok t =>
          rcases t with ⟨acc', it', pos'⟩
          rw [hb] at h
          obtain ⟨h1, h2, h3, h4⟩ := drawBatch_ok hsp _ acc it pos acc' it' pos' hInv hb
          exact (ih acc' it' pos' h1 (by omega) (h4 hit)).1 res h
      · intro n h
        simp only [sampleLoop, if_neg hc] at h
        cases hb : drawBatch sp conds o size (size - acc.length) acc it pos with
        | error n' =>
          rw [hb] at h
          cases h
          exact drawBatch_error _ acc it pos n hit hb
        | ok t =>
          rcases t with ⟨acc', it', pos'⟩
          rw [hb] at h
          obtain ⟨h1, h2, h3, h4⟩ := drawBatch_ok hsp _ acc it pos acc' it' pos' hInv hb
          exact (ih acc' it' pos' h1 (by omega) (h4 hit)).2 n h

/-- C3: whenever sample(n) returns without raising the exhaustion error it
returns exactly n configurations, pairwise distinct as dicts, each accepted
by the space validator and drawn from the parameter domains (for n ≥ 1 and a
space whose categorical/ordinal domains are nonempty). -/
theorem sample_exact_distinct_valid (sp : Space) (conds : List Cond) (o : Oracle)
    (size fuel : Nat) (res : List Config)
    (hpos : 1 ≤ size) (hsp : ∀ np ∈ sp, nonemptyDomain np.2 = true)
    (h : sampleRun sp conds o size fuel = some (.ok res)) :
    res.length = size ∧ (res.Pairwise fun a b => configEquiv a b = false) ∧
    ∀ c ∈ res, validConfig sp conds c = true ∧ domOK sp c = true := by
  have h0 : SampleInv sp conds [] := ⟨by simp, List.Pairwise.nil⟩
  have := (sampleLoop_spec hsp fuel [] 0 0 h0 (by simp) (by
    have : 0 < size * 100 := by positivity
    omega)).1 res h
  exact ⟨this.1, this.2.2, this.2.1⟩

/-- C3 witness: the spec scenario.  On the space of two unconditional
categorical parameters with choices ["a", "b"], under a concrete draw stream,
sample(3) returns exactly the three listed configurations — 3 of them,
pairwise distinct, valid, with domain-respecting values — and each lies in
the 4-element cross product. -/
theorem sample_scenario_witness :
    sampleRun scenSpace [] scenOracle 3 5 = some (.ok scenAccepted) ∧
    scenAccepted.length = 3 ∧
    (scenAccepted.Pairwise fun a b => configEquiv a b = false) ∧
    (∀ c ∈ scenAccepted, validConfig scenSpace [] c = true ∧ domOK scenSpace c = true) ∧
    (scenAccepted.all fun c => memConfig c scenCross) = true := by
  have h : sampleRun scenSpace [] scenOracle 3 5 = some (.ok scenAccepted) := by rfl
  obtain ⟨h1, h2, h3⟩ :=
    sample_exact_distinct_valid scenSpace [] scenOracle 3 5 scenAccepted
      (by decide) (by decide) h
  exact ⟨h, h1, h2, h3, by decide⟩

theorem drawBatch_counter {sp : Space} {conds : List Cond} {o : Oracle} {size : Nat} :
    ∀ (m : Nat) (acc : List Config) (it pos : Nat) (acc' : List Config) (it' pos' : Nat),
      it < size * 100 →
      drawBatch sp conds o size m acc it pos = .ok (acc', it', pos') →
      it' < size * 100 := by
  intro m
  induction m with
  | zero =>
    intro acc it pos acc' it' pos' hit h
    cases h
    exact hit
  | succ m ih =>
    intro acc it pos acc' it' pos' hit h
    simp only [drawBatch] at h
    by_cases hv : validConfig sp conds (drawOne sp conds o pos).1 = true
    · rw [if_pos hv] at h
      by_cases hm : memConfig (drawOne sp conds o pos).1 acc = true
      · rw [if_pos hm] at h
        exact ih acc it _ acc' it' pos' hit h
      · rw [if_neg hm] at h
        exact ih _ it _ acc' it' pos' hit h
    · rw [if_neg hv] at h
      by_cases hc : it + 1 = size * 100
      · rw [if_pos hc] at h
        cases h
      · rw [if_neg hc] at h
        exact ih acc (it + 1) _ acc' it' pos' (by omega) h

theorem sampleLoop_error {sp : Space} {conds : List Cond} {o : Oracle} {size : Nat} :
    ∀ (fuel : Nat) (acc : List Config) (it pos : Nat) (n : Nat),
      it < size * 100 →
      sampleLoop sp conds o size fuel acc it pos = some (.error n) →
      n = size * 100 := by
  intro fuel
  induction fuel with
  | zero =>
    intro acc it pos n _ h
    simp only [sampleLoop] at h
    by_cases hc : size ≤ acc.length
    · rw [if_pos hc] at h; cases h
    · rw [if_neg hc] at h; cases h
  | succ f ih =>
    intro acc it pos n hit h
    by_cases hc : size ≤ acc.length
    · simp only [sampleLoop, if_pos hc] at h
      cases h
    · simp only [sampleLoop, if_neg hc] at h
      cases hb : drawBatch sp conds o size (size - acc.length) acc it pos with
      | error n' =>
        rw [hb] at h
        cases h
        exact drawBatch_error _ acc it pos n hit hb
      | ok t =>
        rcases t with ⟨acc', it', pos'⟩
        rw [hb] at h
        exact ih acc' it' pos' n (drawBatch_counter _ acc it pos acc' it' pos' hit hb) h

/-- C1 (amended): every failed (invalid) draw increments sample's failure
counter and the exhaustion error is raised exactly when the counter reaches
count × 100, so an exhaustion error always reports exactly count × 100
failed draws; duplicate valid draws, however, are not counted, and sample
can loop forever (see the divergence counterexample). -/
theorem sample_exhaustion_exact (sp : Space) (conds : List Cond) (o : Oracle)
    (size fuel n : Nat) (hpos : 1 ≤ size)
    (h : sampleRun sp conds o size fuel = some (.error n)) : n = size * 100 :=
  sampleLoop_error fuel [] 0 0 n (by positivity) h

/-- C1 witness for the amended claim: on a concrete space where the
fixed-point assignment loop always stops early (the last-listed parameter
never activates) every draw fails validation, and sample(1) raises the
exhaustion error reporting exactly 1 × 100 = 100 failed draws. -/
theorem sample_exhaustion_witness :
    1 ≤ 1 ∧
    sampleRun exhaustSpace exhaustConds oracle0 1 100 = some (.error 100) ∧
    (100 : Nat) = 1 * 100 :=
  ⟨by decide, by rfl,
    sample_exhaustion_exact exhaustSpace exhaustConds oracle0 1 100 100 (by decide) (by rfl)⟩

theorem sampleLoop_const_stuck :
    ∀ (f it pos : Nat),
      sampleLoop constSpace [] oracle0 2 f [[("c", .str "x")]] it pos = none := by
  intro f
  induction f with
  | zero => intro it pos; rfl
  | succ f ih => intro it pos; exact ih it pos

/-- C1 counterexample: the claim says sample(count) terminates for every
count ≥ 1, but on the space with a single constant parameter there is
exactly one valid configuration; sample(2) keeps drawing it, never counts
the valid duplicate as a failure, and loops forever — the call neither
returns nor raises, however many loop rounds are run. -/
theorem sample_can_diverge : sampleDiverges constSpace [] oracle0 2 := by
  intro fuel
  cases fuel with
  | zero => rfl
  | succ f => exact sampleLoop_const_stuck f 0 0

theorem pickIdx_length (o : Oracle) :
    ∀ (k : Nat) (avail : List Nat) (pos : Nat),
      (pickIdx o k avail pos).1.length = min k avail.length := by
  intro k
  induction k with
  | zero => intro avail pos; simp [pickIdx]
  | succ k ih =>
    intro avail pos
    simp only [pickIdx]
    by_cases he : avail.isEmpty
    · rw [if_pos he]
      have h0 : avail.length = 0 := by simpa [List.isEmpty_iff_length_eq_zero] using he
      simp [h0]
    · rw [if_neg he]
      have hlen : 0 < avail.length := by
        cases avail with
        | nil => simp at he
        | cons a l => simp
      have hi : o.choice pos % avail.length < avail.length := Nat.mod_lt _ hlen
      rcases hp : pickIdx o k (avail.eraseIdx (o.choice pos % avail.length)) (pos + 1)
        with ⟨rest, pos'⟩
      have hr := ih (avail.eraseIdx (o.choice pos % avail.length)) (pos + 1)
      rw [hp] at hr
      have he' : (avail.eraseIdx (o.choice pos % avail.length)).length = avail.length - 1 :=
        List.length_eraseIdx_of_lt hi
      rw [he'] at hr
      simp at hr ⊢
      omega

theorem expandOne_le (conds : List Cond) (o : Oracle) (nInit : Nat) (values : List Value)
    (name : String) (grid : List Config) (pos : Nat) :
    (expandOne conds o nInit values name grid pos).1.length ≤ nInit := by
  simp only [expandOne]
  by_cases hc : nInit <
      (grid.flatMap fun cfg =>
        if isSatisfied conds name cfg then values.map fun v => cfg ++ [(name, v)]
        else [cfg]).length
  · rw [if_pos hc]
    rcases hp : pickIdx o nInit
        (List.range (grid.flatMap fun cfg =>
          if isSatisfied conds name cfg then values.map fun v => cfg ++ [(name, v)]
          else [cfg]).length) pos with ⟨idxs, pos'⟩
    have hr := pickIdx_length o nInit
        (List.range (grid.flatMap fun cfg =>
          if isSatisfied conds name cfg then values.map fun v => cfg ++ [(name, v)]
          else [cfg]).length) pos
    rw [hp] at hr
    simp at hr ⊢
    omega
  · rw [if_neg hc]
    exact Nat.le_of_not_lt hc

theorem cartesianProd_le_of_start (conds : List Cond) (o : Oracle) (nInit numSteps : Nat) :
    ∀ (l : List (String × Param)) (g : List Config) (pos : Nat),
      g.length ≤ nInit →
      (cartesianProd conds o nInit numSteps l g pos).1.length ≤ nInit := by
  intro l
  induction l with
  | nil => intro g pos h; exact h
  | cons np rest ih =>
    intro g pos h
    simp only [cartesianProd]
    rcases hexp : expandOne conds o nInit (paramGrid o numSteps np.2) np.1 g pos
      with ⟨g', pos'⟩
    have := expandOne_le conds o nInit (paramGrid o numSteps np.2) np.1 g pos
    rw [hexp] at this
    exact ih g' pos' this

theorem cartesianProd_le_of_ne (conds : List Cond) (o : Oracle) (nInit numSteps : Nat) :
    ∀ (l : List (String × Param)) (g : List Config) (pos : Nat), l ≠ [] →
      (cartesianProd conds o nInit numSteps l g pos).1.length ≤ nInit := by
  intro l g pos hne
  cases l with
  | nil => exact absurd rfl hne
  | cons np rest =>
    simp only [cartesianProd]
    rcases hexp : expandOne conds o nInit (paramGrid o numSteps np.2) np.1 g pos
      with ⟨g', pos'⟩
    have := expandOne_le conds o nInit (paramGrid o numSteps np.2) np.1 g pos
    rw [hexp] at this
    exact cartesianProd_le_of_start conds o nInit numSteps rest g' pos' this

/-- C7 (amended): every per-parameter expansion step of grid subsamples its
candidate list down to at most target_count entries — the conditional
Cartesian product run over any nonempty parameter sequence, in particular
over any nonempty prefix of the space (the fold factors through prefixes),
has length at most target_count — and consequently the final validated grid
has at most target_count configurations provided the space has at least one
parameter or target_count ≥ 1.  (On the zero-parameter space the grid is the
single empty configuration even when target_count = 0: see the
counterexample.) -/
theorem grid_size_bound (sp : Space) (conds : List Cond) (o : Oracle)
    (nInit numSteps : Nat) :
    (∀ (l : List (String × Param)) (g : List Config) (pos : Nat), l ≠ [] →
      (cartesianProd conds o nInit numSteps l g pos).1.length ≤ nInit) ∧
    (∀ (l1 l2 : List (String × Param)) (g : List Config) (pos : Nat),
      cartesianProd conds o nInit numSteps (l1 ++ l2) g pos =
        cartesianProd conds o nInit numSteps l2
          (cartesianProd conds o nInit numSteps l1 g pos).1
          (cartesianProd conds o nInit numSteps l1 g pos).2) ∧
    (sp ≠ [] ∨ 1 ≤ nInit → (gridRun sp conds o nInit numSteps).length ≤ nInit) := by
  refine ⟨cartesianProd_le_of_ne conds o nInit numSteps, ?_, ?_⟩
  · intro l1
    induction l1 with
    | nil => intro l2 g pos; rfl
    | cons np rest ih =>
      intro l2 g pos
      simp only [List.cons_append, cartesianProd]
      rcases hexp : expandOne conds o nInit (paramGrid o numSteps np.2) np.1 g pos
        with ⟨g', pos'⟩
      exact ih l2 g' pos'
  · intro hcase
    rcases hcase with hne | hpos
    · have hb := cartesianProd_le_of_ne conds o nInit numSteps sp [[]] 0 hne
      calc (gridRun sp conds o nInit numSteps).length
          ≤ (cartesianProd conds o nInit numSteps sp [[]] 0).1.length :=
            List.length_filter_le _ _
        _ ≤ nInit := hb
    · cases sp with
      | nil =>
        have : (gridRun [] conds o nInit numSteps).length ≤ 1 := List.length_filter_le _ _
        omega
      | cons np rest =>
        have hb := cartesianProd_le_of_ne conds o nInit numSteps (np :: rest) [[]] 0 (by simp)
        calc (gridRun (np :: rest) conds o nInit numSteps).length
            ≤ (cartesianProd conds o nInit numSteps (np :: rest) [[]] 0).1.length :=
              List.length_filter_le _ _
          _ ≤ nInit := hb

/-- C7 witness: on the concrete two-parameter space with target_count 3 the
expansion steps and the final grid respect the bound. -/
theorem grid_size_bound_witness :
    (∀ (g : List Config) (pos : Nat),
      (cartesianProd [] oracle0 3 2 scenSpace g pos).1.length ≤ 3) ∧
    (gridRun scenSpace [] oracle0 3 2).length ≤ 3 := by
  refine ⟨fun g pos => (grid_size_bound scenSpace [] oracle0 3 2).1 scenSpace g pos
    (by simp [scenSpace]), ?_⟩
  exact (grid_size_bound scenSpace [] oracle0 3 2).2.2 (Or.inl (by simp [scenSpace]))

/-- C7 counterexample: on the space with no parameters, grid(0) performs no
expansion step, so nothing is ever subsampled, and the returned list is the
single empty configuration — one entry, exceeding target_count = 0. -/
theorem grid_size_bound_counterexample :
    ¬ (gridRun [] [] oracle0 0 5).length ≤ 0 := by
  decide

theorem argsortDesc_length (evals : List ℚ) : (argsortDesc evals).length = evals.length := by
  unfold argsortDesc
  rw [(List.perm_insertionSort _ _).length_eq, List.length_range]

theorem argsortDesc_perm (evals : List ℚ) :
    (argsortDesc evals).Perm (List.range evals.length) :=
  List.perm_insertionSort _ _

theorem argsortDesc_sorted (evals : List ℚ) :
    List.Pairwise (fun i j => evals.getD j 0 ≤ evals.getD i 0) (argsortDesc evals) := by
  haveI : IsTotal Nat (fun i j => evals.getD j 0 ≤ evals.getD i 0) := ⟨fun a b => le_total _ _⟩
  haveI : IsTrans Nat (fun i j => evals.getD j 0 ≤ evals.getD i 0) :=
    ⟨fun a b c hab hbc => le_trans hbc hab⟩
  exact List.sorted_insertionSort _ _

theorem argsortDesc_topk (evals : List ℚ) (k : Nat) (hk : k ≤ evals.length) :
    ((argsortDesc evals).take k).Nodup ∧
    (∀ i ∈ (argsortDesc evals).take k, i < evals.length) ∧
    ((argsortDesc evals).take k).length = k ∧
    (((argsortDesc evals).take k).Pairwise fun i j => evals.getD j 0 ≤ evals.getD i 0) ∧
    (∀ i ∈ (argsortDesc evals).take k, ∀ j, j < evals.length →
      j ∉ (argsortDesc evals).take k → evals.getD j 0 ≤ evals.getD i 0) := by
  have hperm := argsortDesc_perm evals
  have hnodup : (argsortDesc evals).Nodup := hperm.nodup_iff.mpr (List.nodup_range _)
  have hsorted := argsortDesc_sorted evals
  refine ⟨hnodup.sublist (List.take_sublist _ _), ?_, ?_, ?_, ?_⟩
  · intro i hi
    have : i ∈ argsortDesc evals := (List.take_sublist _ _).subset hi
    exact List.mem_range.mp (hperm.mem_iff.mp this)
  · rw [List.length_take, argsortDesc_length]
    exact min_eq_left hk
  · exact hsorted.sublist (List.take_sublist _ _)
  · intro i hi j hj hjn
    have hjmem : j ∈ argsortDesc evals := hperm.mem_iff.mpr (List.mem_range.mpr hj)
    have hsplit : (argsortDesc evals).take k ++ (argsortDesc evals).drop k =
        argsortDesc evals := List.take_append_drop _ _
    have hjd : j ∈ (argsortDesc evals).drop k := by
      rcases List.mem_append.mp (hsplit ▸ hjmem) with hx | hx
      · exact absurd hx hjn
      · exact hx
    have hpw : List.Pairwise (fun i j => evals.getD j 0 ≤ evals.getD i 0)
        ((argsortDesc evals).take k ++ (argsortDesc evals).drop k) := by
      rw [hsplit]
      exact hsorted
    exact (List.pairwise_append.mp hpw).2.2 i hi j hjd

theorem shAsk_ok_state {s s' : SHState} {r : Option Config × Int} (hInv : SHInv s)
    (h : shAsk s = (.ok r, s')) :
    SHInv s' ∧ s'.configs.length ≤ s.configs.length ∧ s.currBudget ≤ s'.currBudget ∧
    r.2 = s'.currBudget ∧ s'.maxBudget = s.maxBudget ∧ s'.minBudget = s.minBudget ∧
    s'.eta = s.eta := by
  obtain ⟨he, hmin0, hminc, hcmax⟩ := hInv
  by_cases h1 : s.evals.length = s.configs.length
  · by_cases h2 : s.currBudget = s.maxBudget
    · simp only [shAsk, if_pos h1, if_pos h2] at h
      injection h with hA hB
      injection hA with hA'
      subst hB
      rw [← hA']
      exact ⟨⟨he, hmin0, hminc, hcmax⟩, Nat.le_refl _, le_refl _, h2.symm, rfl, rfl, rfl⟩
    · simp only [shAsk, if_pos h1, if_neg h2] at h
      split at h
      case _ c hg =>
        injection h with hA hB
        injection hA with hA'
        subst hB
        rw [← hA']
        have hcurr : s.currBudget ≤
            (if (((argsortDesc s.evals).take (s.evals.length / s.eta)).map
                fun i => s.configs.getD i []).length = 1 then s.maxBudget
             else min (s.currBudget * (s.eta : Int)) s.maxBudget) := by
          by_cases hone : (((argsortDesc s.evals).take (s.evals.length / s.eta)).map
              fun i => s.configs.getD i []).length = 1
          · rw [if_pos hone]; exact hcmax
          · rw [if_neg hone]
            refine le_min ?_ hcmax
            have h0c : (0 : Int) ≤ s.currBudget := le_trans hmin0 hminc
            have h1e : (1 : Int) ≤ (s.eta : Int) := by exact_mod_cast he
            calc s.currBudget = s.currBudget * 1 := by ring
              _ ≤ s.currBudget * (s.eta : Int) := by
                  exact mul_le_mul_of_nonneg_left h1e h0c
        have hble : (if (((argsortDesc s.evals).take (s.evals.length / s.eta)).map
            fun i => s.configs.getD i []).length = 1 then s.maxBudget
            else min (s.currBudget * (s.eta : Int)) s.maxBudget) ≤ s.maxBudget := by
          by_cases hone : (((argsortDesc s.evals).take (s.evals.length / s.eta)).map
              fun i => s.configs.getD i []).length = 1
          · rw [if_pos hone]
          · rw [if_neg hone]; exact min_le_right _ _
        refine ⟨⟨he, hmin0, le_trans hminc hcurr, hble⟩, ?_, hcurr, rfl, rfl, rfl, rfl⟩
        · simp only [List.length_map, List.length_take, argsortDesc_length]
          have : s.evals.length / s.eta ≤ s.evals.length := Nat.div_le_self _ _
          omega
      case _ hg =>
        injection h with hA hB
        cases hA
  · simp only [shAsk, if_neg h1] at h
    split at h
    case _ c hg =>
      injection h with hA hB
      injection hA with hA'
      subst hB
      rw [← hA']
      exact ⟨⟨he, hmin0, hminc, hcmax⟩, Nat.le_refl _, le_refl _, rfl, rfl, rfl, rfl⟩
    case _ hg =>
      injection h with hA hB
      cases hA

/-- C5: when every pooled configuration of the current round has a result,
ask either returns the terminal marker (current budget already equals
max_budget, state unchanged) or — given at least one survivor — keeps exactly
the top floor(count/eta) configurations ranked by result descending (their
results dominate every eliminated one's), multiplies the budget by eta capped
at max_budget, jumping straight to max_budget when exactly one configuration
remains, resets the round's result list and cursor, and returns the first
surviving configuration at the new budget. -/
theorem sh_ask_round_transition (s : SHState) (h : s.evals.length = s.configs.length) :
    (s.currBudget = s.maxBudget → shAsk s = (.ok (none, s.maxBudget), s)) ∧
    (s.currBudget ≠ s.maxBudget → 1 ≤ s.configs.length / s.eta →
      ∃ c b s', shAsk s = (.ok (some c, b), s') ∧
        ∃ is : List Nat,
          is.Nodup ∧ (∀ i ∈ is, i < s.configs.length) ∧
          is.length = s.configs.length / s.eta ∧
          s'.configs = is.map (fun i => s.configs.getD i []) ∧
          (is.Pairwise fun i j => s.evals.getD j 0 ≤ s.evals.getD i 0) ∧
          (∀ i ∈ is, ∀ j, j < s.configs.length → j ∉ is →
            s.evals.getD j 0 ≤ s.evals.getD i 0) ∧
          s'.evals = [] ∧ s'.idx = 1 ∧
          s'.currBudget = (if s.configs.length / s.eta = 1 then s.maxBudget
            else min (s.currBudget * (s.eta : Int)) s.maxBudget) ∧
          b = s'.currBudget ∧ s'.configs.getD 0 [] = c ∧
          s'.maxBudget = s.maxBudget ∧ s'.minBudget = s.minBudget ∧ s'.eta = s.eta) := by
  constructor
  · intro hb
    simp [shAsk, h, hb]
  · intro hb hk
    obtain ⟨hnd, hmem, hlen, hpw, htop⟩ :=
      argsortDesc_topk s.evals (s.evals.length / s.eta)
        (Nat.div_le_self _ _)
    set is := (argsortDesc s.evals).take (s.evals.length / s.eta) with his
    have hkk : s.evals.length / s.eta = s.configs.length / s.eta := by rw [h]
    have hlen' : is.length = s.configs.length / s.eta := by rw [hlen, hkk]
    have hne : is ≠ [] := by
      intro hnil
      rw [hnil] at hlen'
      simp at hlen'
      omega
    cases hisc : is with
    | nil => exact absurd hisc hne
    | cons i0 irest =>
      have hsome : (is.map fun i => s.configs.getD i []).get? 0 =
          some (s.configs.getD i0 []) := by
        rw [hisc]
        rfl
      have hshask : shAsk s = (.ok (some (s.configs.getD i0 []),
          if (is.map fun i => s.configs.getD i []).length = 1 then s.maxBudget
          else min (s.currBudget * (s.eta : Int)) s.maxBudget),
          { s with configs := is.map fun i => s.configs.getD i [],
                   evals := [],
                   currBudget := if (is.map fun i => s.configs.getD i []).length = 1
                     then s.maxBudget
                     else min (s.currBudget * (s.eta : Int)) s.maxBudget,
                   idx := 1 }) := by
        simp only [shAsk, if_pos h, if_neg hb, ← his, hsome]
      refine ⟨s.configs.getD i0 [], _, _, hshask, is, hnd, ?_, hlen', rfl, hpw, ?_, rfl, rfl,
        ?_, rfl, ?_, rfl, rfl, rfl⟩
      · intro i hi
        have := hmem i hi
        omega
      · intro i hi j hj hjn
        exact htop i hi j (by omega) hjn
      · simp only [List.length_map, hlen', hkk]
      · rw [hisc]
        rfl

/-- C5 witness: a concrete finished round of two configurations with results
[1, 2], eta = 2, budget 1 of max 8: ask keeps the single top configuration
(result 2), jumps the budget to 8, resets results and cursor, and returns
that configuration at budget 8. -/
theorem sh_ask_round_transition_witness :
    shState0.evals.length = shState0.configs.length ∧
    (shState0.currBudget ≠ shState0.maxBudget → 1 ≤ shState0.configs.length / shState0.eta →
      ∃ c b s', shAsk shState0 = (.ok (some c, b), s') ∧
        ∃ is : List Nat,
          is.Nodup ∧ (∀ i ∈ is, i < shState0.configs.length) ∧
          is.length = shState0.configs.length / shState0.eta ∧
          s'.configs = is.map (fun i => shState0.configs.getD i []) ∧
          (is.Pairwise fun i j => shState0.evals.getD j 0 ≤ shState0.evals.getD i 0) ∧
          (∀ i ∈ is, ∀ j, j < shState0.configs.length → j ∉ is →
            shState0.evals.getD j 0 ≤ shState0.evals.getD i 0) ∧
          s'.evals = [] ∧ s'.idx = 1 ∧
          s'.currBudget = (if shState0.configs.length / shState0.eta = 1
            then shState0.maxBudget
            else min (shState0.currBudget * (shState0.eta : Int)) shState0.maxBudget) ∧
          b = s'.currBudget ∧ s'.configs.getD 0 [] = c ∧
          s'.maxBudget = shState0.maxBudget ∧ s'.minBudget = shState0.minBudget ∧
          s'.eta = shState0.eta) :=
  ⟨rfl, (sh_ask_round_transition shState0 rfl).2⟩

theorem shAsk_budget_facts {t : SHState} (hInv : SHInv t) :
    ∀ (c : Option Config) (b : Int) (t' : SHState), shAsk t = (.ok (c, b), t') →
      t.currBudget ≤ b ∧ b ≤ t.maxBudget ∧ b = t'.currBudget := by
  intro c b t' h'
  obtain ⟨hInv', _, hcc, hr2, hmax, _, _⟩ := shAsk_ok_state hInv h'
  have hb : b = t'.currBudget := hr2
  refine ⟨?_, ?_, hb⟩
  · rw [hb]; exact hcc
  · rw [hb, ← hmax]
    exact hInv'.2.2.2

/-- C6: over every SuccessiveHalving run of ask/tell steps from a
well-formed state, the pool size is non-increasing, the stored budget is
non-decreasing and the state stays well-formed with max_budget unchanged;
any successful ask from a reached state returns a budget that is at least
the pre-state budget, at most max_budget, and equal to the post-state
budget — so the budgets returned by successive asks never decrease and
never exceed max_budget. -/
theorem sh_invariants (s t : SHState) (hInv : SHInv s) (h : SHReach s t) :
    SHInv t ∧ t.configs.length ≤ s.configs.length ∧ s.currBudget ≤ t.currBudget ∧
    t.maxBudget = s.maxBudget ∧
    (∀ (c : Option Config) (b : Int) (t' : SHState), shAsk t = (.ok (c, b), t') →
      t.currBudget ≤ b ∧ b ≤ t.maxBudget ∧ b = t'.currBudget) := by
  induction h with
  | refl =>
    exact ⟨hInv, Nat.le_refl _, le_refl _, rfl, shAsk_budget_facts hInv⟩
  | step t0 u0 hreach hstep ih =>
    obtain ⟨ihInv, ihlen, ihcurr, ihmax, _⟩ := ih
    cases hstep with
    | ask u1 r h' =>
      obtain ⟨hInv', hlen', hcc, _, hmax', _, _⟩ := shAsk_ok_state ihInv h'
      exact ⟨hInv', Nat.le_trans hlen' ihlen, le_trans ihcurr hcc,
        hmax'.trans ihmax, shAsk_budget_facts hInv'⟩
    | tell r =>
      exact ⟨ihInv, ihlen, ihcurr, ihmax, shAsk_budget_facts ihInv⟩

/-- C6 witness: the concrete well-formed state reaches itself, and its
successful ask returns a budget between the current budget and max_budget
equal to the post-state budget. -/
theorem sh_invariants_witness :
    SHInv shState0 ∧
    (SHInv shState0 ∧ shState0.configs.length ≤ shState0.configs.length ∧
      shState0.currBudget ≤ shState0.currBudget ∧
      shState0.maxBudget = shState0.maxBudget ∧
      (∀ (c : Option Config) (b : Int) (t' : SHState),
        shAsk shState0 = (.ok (c, b), t') →
        shState0.currBudget ≤ b ∧ b ≤ shState0.maxBudget ∧ b = t'.currBudget)) := by
  have hInv0 : SHInv shState0 := ⟨by decide, by decide, by decide, by decide⟩
  exact ⟨hInv0, sh_invariants shState0 shState0 hInv0 (SHReach.refl _)⟩

theorem boFit_preserves {rngOf : Option Int → Oracle} {gpo : GPOracle} {Φ φ : ℚ → ℚ}
    {fuel : Nat} {s t : BOState} (h : boFit rngOf gpo Φ φ fuel s = some t) :
    t.space = s.space ∧ t.conds = s.conds ∧ t.seed = s.seed := by
  unfold boFit at h
  split at h
  · cases h
  · split at h
    · split at h
      · cases h
      · split at h
        · cases h
        · cases h
          exact ⟨rfl, rfl, rfl⟩
    · cases h

theorem boAsk_preserves {rngOf : Option Int → Oracle} {gpo : GPOracle} {Φ φ : ℚ → ℚ}
    {fuel : Nat} {s s' : BOState} {r : Option Config × Int}
    (h : boAsk rngOf gpo Φ φ fuel s = (.ok r, s')) :
    s'.space = s.space ∧ s'.conds = s.conds ∧ s'.seed = s.seed := by
  unfold boAsk at h
  split at h
  · injection h with h1 h2
    subst h2
    exact ⟨rfl, rfl, rfl⟩
  · split at h
    · injection h with h1 h2
      cases h1
    · next t ht =>
      have hts : t.space = s.space ∧ t.conds = s.conds ∧ t.seed = s.seed := by
        by_cases hc2 : s.evals.length = s.configs.length
        · rw [if_pos hc2] at ht
          exact boFit_preserves ht
        · rw [if_neg hc2] at ht
          cases ht
          exact ⟨rfl, rfl, rfl⟩
      split at h
      · injection h with h1 h2
        subst h2
        exact hts
      · injection h with h1 h2
        cases h1

/-- C10: along every run of BayesianOptimisation ask/tell steps the stored
space, conditions and seed never change, so sample and grid called with the
same arguments from any reached state give the same results as from the
initial state — in particular the 100-candidate draw of ask's surrogate-fit
branch (sample(100) with the generator re-created from the stored seed) is
identical at every fit step. -/
theorem bo_candidates_stable (rngOf : Option Int → Oracle) (gpo : GPOracle)
    (Φ φ : ℚ → ℚ) (fuel : Nat) (s t : BOState)
    (h : BOReach rngOf gpo Φ φ fuel s t) :
    t.space = s.space ∧ t.conds = s.conds ∧ t.seed = s.seed ∧
    (∀ n f, sampleRun t.space t.conds (rngOf t.seed) n f =
      sampleRun s.space s.conds (rngOf s.seed) n f) ∧
    (∀ k st, gridRun t.space t.conds (rngOf t.seed) k st =
      gridRun s.space s.conds (rngOf s.seed) k st) ∧
    boCandidates rngOf fuel t = boCandidates rngOf fuel s := by
  have key : t.space = s.space ∧ t.conds = s.conds ∧ t.seed = s.seed := by
    induction h with
    | refl => exact ⟨rfl, rfl, rfl⟩
    | step t0 u0 hreach hstep ih =>
      obtain ⟨h1, h2, h3⟩ := ih
      cases hstep with
      | ask u1 r h' =>
        obtain ⟨g1, g2, g3⟩ := boAsk_preserves h'
        exact ⟨g1.trans h1, g2.trans h2, g3.trans h3⟩
      | tell r => exact ⟨h1, h2, h3⟩
  obtain ⟨h1, h2, h3⟩ := key
  refine ⟨h1, h2, h3, ?_, ?_, ?_⟩ <;> simp [h1, h2, h3, boCandidates]

/-- C10 witness: one concrete ask step on the concrete instance; afterwards
the 100-candidate draw expression is unchanged, as is the stored seed. -/
theorem bo_candidates_stable_witness :
    boCandidates rngOf0 5 { boState0 with idx := 1 } = boCandidates rngOf0 5 boState0 ∧
    ({ boState0 with idx := 1 } : BOState).seed = boState0.seed := by
  have hstep : BOStep rngOf0 gpo0 id id 5 boState0 { boState0 with idx := 1 } :=
    BOStep.ask boState0 { boState0 with idx := 1 }
      (some [("x", .str "a"), ("y", .str "a")], 8) rfl
  have hreach : BOReach rngOf0 gpo0 id id 5 boState0 { boState0 with idx := 1 } :=
    BOReach.step _ _ _ (BOReach.refl _) hstep
  have hc := bo_candidates_stable rngOf0 gpo0 id id 5 boState0 _ hreach
  exact ⟨hc.2.2.2.2.2, hc.2.2.1⟩

end HPO

